import Mathlib

/-!
Shallow embedding of `src/audioprocessor.py`, a small stereo audio toolkit.

A Python sound dictionary `{'rate': r, 'left': l, 'right': r}` becomes the
structure `Sound`.  Python floats are modelled as exact rationals, Python
ints as `Int`.  Python runtime failures (AssertionError, IndexError,
ZeroDivisionError) are modelled with `Except PyError`; list indexing uses
Python's semantics (negative indices wrap, out-of-range raises).
-/

/-- Python runtime failures that the audioprocessor code can raise. -/
inductive PyError where
  /-- the assert on line 18: filename must end in ".wav" -/
  | assertWavExt : PyError
  /-- the assert on line 23: sample width must be 2 bytes -/
  | assertBitDepth : PyError
  /-- the assert on line 86: sound rates must agree in mix -/
  | rateAssert : PyError
  /-- the assert on line 87: proportion must lie in [0, 1] -/
  | propAssert : PyError
  /-- an out-of-range list subscript -/
  | indexError : PyError
  /-- division by zero -/
  | zeroDivision : PyError
deriving DecidableEq

/-- The sound dictionary: a sample rate and two channels of samples. -/
structure Sound where
  rate : ℤ
  left : List ℚ
  right : List ℚ
deriving DecidableEq

/-- Python `int(x)` on a real value: truncation toward zero. -/
def pyInt (q : ℚ) : ℤ := if 0 ≤ q then ⌊q⌋ else ⌈q⌉

/-- Python `round(x)` on a real value: round half to even. -/
def pyRound (q : ℚ) : ℤ :=
  if Int.fract q < 1 / 2 then ⌊q⌋
  else if 1 / 2 < Int.fract q then ⌊q⌋ + 1
  else if ⌊q⌋ % 2 = 0 then ⌊q⌋ else ⌊q⌋ + 1

/-- Python list subscription `l[i]`: non-negative indices are checked
against the length, negative indices wrap once from the end, anything
else is out of range. -/
def pyGet (l : List ℚ) (i : ℤ) : Option ℚ :=
  if 0 ≤ i then l.get? i.toNat
  else if 0 ≤ (l.length : ℤ) + i then l.get? ((l.length : ℤ) + i).toNat
  else none

/-- Python list subscription in the `Except` monad: `none` becomes an
IndexError. -/
def pyGetE (l : List ℚ) (i : ℤ) : Except PyError ℚ :=
  match pyGet l i with
  | none => .error .indexError
  | some v => .ok v

/-- Python true division: raises ZeroDivisionError on a zero divisor. -/
def pyDiv (a b : ℚ) : Except PyError ℚ :=
  if b = 0 then .error .zeroDivision else .ok (a / b)

/-- Helper `multiply_list` (lines 162-170): scales every element of a
list by `number`. -/
def multiply_list (input_list : List ℚ) (number : ℚ) : List ℚ :=
  input_list.map (fun i => i * number)

/-- The parameters and decoded frame data that Python's `wave` module
(an external library, not part of this repository) hands to `load_audio`:
channel count, sample width in bytes, frame rate, and per-frame 16-bit
values (first sample of the frame, second sample of the frame). -/
structure WaveFile where
  nchannels : ℤ
  sampwidth : ℤ
  framerate : ℤ
  frames : List (ℤ × ℤ)
deriving DecidableEq

/-- The check on line 18: Python `filename[-4:] == ".wav"` (for strings
shorter than four characters the slice is the whole string). -/
def wavSuffixCheck (filename : List Char) : Bool :=
  filename.drop (filename.length - 4) = ['.', 'w', 'a', 'v']

/-- The per-sample decode map of `load_audio` (lines 38-39): divide the
16-bit integer by 2^15. -/
def decodeSample (i : ℤ) : ℚ := (i : ℚ) / 2 ^ 15

/-- `load_audio` (lines 10-41) with the external `wave` parsing already
done: first the ".wav" suffix assert, then the 16-bit assert, then the
channel split (mono duplicates the single channel) and normalization. -/
def load_audio (filename : List Char) (f : WaveFile) : Except PyError Sound :=
  if wavSuffixCheck filename = false then .error .assertWavExt
  else if f.sampwidth ≠ 2 then .error .assertBitDepth
  else
    let raw := if f.nchannels = 2 then f.frames else f.frames.map (fun fr => (fr.1, fr.1))
    .ok ⟨f.framerate, raw.map (fun fr => decodeSample fr.1), raw.map (fun fr => decodeSample fr.2)⟩

/-- The clamp-and-scale expression of `write_wav` (lines 55-56):
`max(-1, min(1, x)) * (2**15 - 1)`. -/
def clampScale (x : ℚ) : ℚ := max (-1) (min 1 x) * (2 ^ 15 - 1)

/-- The per-sample encode map of `write_wav` (lines 55-56): clamp to
[-1, 1], scale by 2^15 - 1, and truncate with Python `int`. -/
def encodeSample (x : ℚ) : ℤ := pyInt (clampScale x)

/-- The integer frame list that `write_wav` (lines 53-58) serializes:
zip the channels and append the encoded left then right sample of each
frame. -/
def write_wav_frames (sound : Sound) : List ℤ :=
  (sound.left.zip sound.right).foldl
    (fun out lr => out ++ [encodeSample lr.1, encodeSample lr.2]) []

/-- `backwards` (lines 70-78): reverse both channels, keep the rate. -/
def backwards (sound : Sound) : Sound :=
  ⟨sound.rate, sound.left.reverse, sound.right.reverse⟩

/-- One iteration of the `mix` loop (lines 98-99): append the blended
left sample, then the blended right sample. -/
def mixBody (sound1 sound2 : Sound) (p : ℚ) (st : List ℚ × List ℚ) (i : ℕ) :
    Except PyError (List ℚ × List ℚ) := do
  let a1 ← pyGetE sound1.left (i : ℤ)
  let b1 ← pyGetE sound2.left (i : ℤ)
  let l := st.1 ++ [p * a1 + (1 - p) * b1]
  let a2 ← pyGetE sound1.right (i : ℤ)
  let b2 ← pyGetE sound2.right (i : ℤ)
  pure (l, st.2 ++ [p * a2 + (1 - p) * b2])

/-- `mix` (lines 81-101): assert equal rates, assert `0 <= p <= 1`, take
the smaller left-channel length, and blend sample by sample. -/
def mix (sound1 sound2 : Sound) (p : ℚ) : Except PyError Sound :=
  if sound1.rate ≠ sound2.rate then .error .rateAssert
  else if ¬ (0 ≤ p ∧ p ≤ 1) then .error .propAssert
  else do
    let samples :=
      if sound1.left.length ≤ sound2.left.length then sound1.left.length
      else sound2.left.length
    let st ← (List.range samples).foldlM (mixBody sound1 sound2 p) ([], [])
    pure ⟨sound1.rate, st.1, st.2⟩

/-- One index of the inner `echo` loop (lines 118-121): when
`i >= sample_delay * (1 + num)` add the shifted echo sample onto each
channel in place. -/
def echoBody (leftEcho rightEcho : List ℚ) (shift : ℤ) (st : List ℚ × List ℚ) (i : ℕ) :
    Except PyError (List ℚ × List ℚ) :=
  if shift ≤ (i : ℤ) then do
    let lv ← pyGetE st.1 (i : ℤ)
    let le ← pyGetE leftEcho ((i : ℤ) - shift)
    let l := st.1.set i (lv + le)
    let rv ← pyGetE st.2 (i : ℤ)
    let re ← pyGetE rightEcho ((i : ℤ) - shift)
    pure (l, st.2.set i (rv + re))
  else pure st

/-- One pass of the `echo` while-loop (lines 113-122) with counter
`num`: extend both channels with `sample_delay` zeros (an empty
extension when `sample_delay` is negative, as in Python), build the
scaled echo channels, and run the inner loop over the current length. -/
def echoIter (sound : Sound) (sample_delay : ℤ) (scale : ℚ)
    (st : List ℚ × List ℚ) (num : ℕ) : Except PyError (List ℚ × List ℚ) :=
  let l := st.1 ++ List.replicate sample_delay.toNat 0
  let r := st.2 ++ List.replicate sample_delay.toNat 0
  let leftEcho := multiply_list sound.left (scale ^ (1 + num))
  let rightEcho := multiply_list sound.right (scale ^ (1 + num))
  (List.range l.length).foldlM
    (echoBody leftEcho rightEcho (sample_delay * (1 + (num : ℤ)))) (l, r)

/-- `echo` (lines 104-124): compute the sample delay with Python
`round`, then run the while-loop `num_echos` times (never, when
`num_echos <= 0`). -/
def echo (sound : Sound) (num_echos : ℤ) (delay scale : ℚ) : Except PyError Sound := do
  let sample_delay := pyRound (delay * (sound.rate : ℚ))
  let st ← (List.range num_echos.toNat).foldlM (echoIter sound sample_delay scale)
    (sound.left, sound.right)
  pure ⟨sound.rate, st.1, st.2⟩

/-- One iteration of the `pan` loop (lines 135-141): rescale the sample
of each channel in place, dividing by `n - 1` exactly where the Python
expression does. -/
def panBody (n : ℕ) (left_to_right : Bool) (st : List ℚ × List ℚ) (i : ℕ) :
    Except PyError (List ℚ × List ℚ) := do
  if left_to_right then
    let lv ← pyGetE st.1 (i : ℤ)
    let f1 ← pyDiv (i : ℚ) ((n : ℚ) - 1)
    let l := st.1.set i (lv * (1 - f1))
    let rv ← pyGetE st.2 (i : ℤ)
    let f2 ← pyDiv (i : ℚ) ((n : ℚ) - 1)
    pure (l, st.2.set i (rv * f2))
  else
    let lv ← pyGetE st.1 (i : ℤ)
    let f1 ← pyDiv (i : ℚ) ((n : ℚ) - 1)
    let l := st.1.set i (lv * f1)
    let rv ← pyGetE st.2 (i : ℤ)
    let f2 ← pyDiv (i : ℚ) ((n : ℚ) - 1)
    pure (l, st.2.set i (rv * (1 - f2)))

/-- `pan` (lines 127-142): cross-fade over the buffer, iterating over
the length of the left channel. -/
def pan (sound : Sound) (left_to_right : Bool) : Except PyError Sound := do
  let n := sound.left.length
  let st ← (List.range n).foldlM (panBody n left_to_right) (sound.left, sound.right)
  pure ⟨sound.rate, st.1, st.2⟩

/-- One iteration of the `remove_vocals` loop (lines 152-153): append
the difference of the channels. -/
def removeBody (sound : Sound) (acc : List ℚ) (i : ℕ) : Except PyError (List ℚ) := do
  let lv ← pyGetE sound.left (i : ℤ)
  let rv ← pyGetE sound.right (i : ℤ)
  pure (acc ++ [lv - rv])

/-- `remove_vocals` (lines 145-155): subtract right from left and use
the result for both channels. -/
def remove_vocals (sound : Sound) : Except PyError Sound := do
  let new ← (List.range sound.left.length).foldlM (removeBody sound) []
  pure ⟨sound.rate, new, new⟩

/-- The echo contribution of repetition `k` at output index `i`, as the
specification words it: `scale^(k+1) * original[i - d*(k+1)]` wherever
that original sample exists. -/
def echoAddend (orig : List ℚ) (scale : ℚ) (d k i : ℕ) : ℚ :=
  if d * (k + 1) ≤ i ∧ i - d * (k + 1) < orig.length then
    scale ^ (k + 1) * orig.getD (i - d * (k + 1)) 0
  else 0

/-- The specification's description of an echoed channel at index `i`:
the original samples extended by zeros, plus the superposed echo
contributions of repetitions `0 .. E-1`. -/
def echoShape (orig : List ℚ) (scale : ℚ) (d E i : ℕ) : ℚ :=
  orig.getD i 0 + ∑ k ∈ Finset.range E, echoAddend orig scale d k i

/-! ### Basic lemmas about the Python-semantics helpers -/

theorem getD_eq_zero_of_le {l : List ℚ} {i : ℕ} (h : l.length ≤ i) : l.getD i 0 = 0 := by
  simp [List.getD_eq_getElem?_getD, List.getElem?_eq_none h]

theorem getD_append_lt {l l' : List ℚ} {i : ℕ} (h : i < l.length) :
    (l ++ l').getD i 0 = l.getD i 0 := by
  simp [List.getD_eq_getElem?_getD, List.getElem?_append_left h]

theorem getD_append_ge {l l' : List ℚ} {i : ℕ} (h : l.length ≤ i) :
    (l ++ l').getD i 0 = l'.getD (i - l.length) 0 := by
  simp [List.getD_eq_getElem?_getD, List.getElem?_append_right h]

theorem getD_replicate_zero {n i : ℕ} : (List.replicate n (0 : ℚ)).getD i 0 = 0 := by
  rcases lt_or_le i n with h | h
  · simp [List.getD_eq_getElem?_getD, List.getElem?_replicate_of_lt h]
  · exact getD_eq_zero_of_le (by simpa using h)

theorem getD_set_self {l : List ℚ} {i : ℕ} {v : ℚ} (h : i < l.length) :
    (l.set i v).getD i 0 = v := by
  simp [List.getD_eq_getElem?_getD, List.getElem?_set_self h]

theorem getD_set_ne {l : List ℚ} {i j : ℕ} {v : ℚ} (h : i ≠ j) :
    (l.set i v).getD j 0 = l.getD j 0 := by
  simp [List.getD_eq_getElem?_getD, List.getElem?_set_ne h]

theorem pyGet_of_lt {l : List ℚ} {i : ℕ} (h : i < l.length) :
    pyGet l (i : ℤ) = some (l.getD i 0) := by
  have h0 : (0 : ℤ) ≤ (i : ℤ) := Int.natCast_nonneg i
  simp only [pyGet, if_pos h0, Int.toNat_natCast]
  rw [List.get?_eq_getElem?, List.getElem?_eq_getElem h]
  simp [List.getD_eq_getElem?_getD, List.getElem?_eq_getElem h]

theorem pyGetE_of_lt {l : List ℚ} {i : ℕ} (h : i < l.length) :
    pyGetE l (i : ℤ) = .ok (l.getD i 0) := by
  simp [pyGetE, pyGet_of_lt h]

theorem pyGet_nonneg_of_lt {l : List ℚ} {j : ℤ} (h0 : 0 ≤ j) (h : j.toNat < l.length) :
    pyGet l j = some (l.getD j.toNat 0) := by
  have := pyGet_of_lt (l := l) (i := j.toNat) h
  rwa [Int.toNat_of_nonneg h0] at this

theorem pyGetE_nonneg_of_lt {l : List ℚ} {j : ℤ} (h0 : 0 ≤ j) (h : j.toNat < l.length) :
    pyGetE l j = .ok (l.getD j.toNat 0) := by
  simp [pyGetE, pyGet_nonneg_of_lt h0 h]

theorem multiply_list_length (l : List ℚ) (c : ℚ) :
    (multiply_list l c).length = l.length := by
  simp [multiply_list]

theorem multiply_list_getD (l : List ℚ) (c : ℚ) (i : ℕ) :
    (multiply_list l c).getD i 0 = l.getD i 0 * c := by
  rcases lt_or_le i l.length with h | h
  · simp [multiply_list, List.getD_eq_getElem?_getD, List.getElem?_map,
      List.getElem?_eq_getElem h]
  · rw [getD_eq_zero_of_le (by simpa [multiply_list] using h), getD_eq_zero_of_le h, zero_mul]

theorem pyInt_sub_abs_lt (q : ℚ) : |(pyInt q : ℚ) - q| < 1 := by
  unfold pyInt
  split
  · rw [abs_sub_lt_iff]
    constructor
    · linarith [Int.floor_le q]
    · linarith [Int.sub_one_lt_floor q]
  · rw [abs_sub_lt_iff]
    constructor
    · linarith [Int.ceil_lt_add_one q]
    · linarith [Int.le_ceil q]

theorem pyInt_abs_le (q : ℚ) : |(pyInt q : ℚ)| ≤ |q| := by
  unfold pyInt
  split
  · next h =>
    rw [abs_of_nonneg h, abs_of_nonneg (by exact_mod_cast Int.floor_nonneg.mpr h)]
    exact Int.floor_le q
  · next h =>
    push_neg at h
    have hc : ⌈q⌉ ≤ 0 := Int.ceil_le.mpr (by exact_mod_cast h.le)
    rw [abs_of_neg h, abs_of_nonpos (by exact_mod_cast hc)]
    have := Int.le_ceil q
    linarith

theorem map_range_getD (f : ℕ → ℚ) (n i : ℕ) (h : i < n) :
    ((List.range n).map f).getD i 0 = f i := by
  simp [List.getD_eq_getElem?_getD, List.getElem?_map, List.getElem?_range h]

theorem map_getD_range_eq_take (l : List ℚ) (s : ℕ) (hs : s ≤ l.length) :
    (List.range s).map (fun i => l.getD i 0) = l.take s := by
  apply List.ext_getElem?
  intro n
  rcases lt_or_le n s with h | h
  · rw [List.getElem?_map, List.getElem?_range h, List.getElem?_take_of_lt h]
    simp [List.getD_eq_getElem?_getD, List.getElem?_eq_getElem (lt_of_lt_of_le h hs)]
  · have h1 : ((List.range s).map (fun i => l.getD i 0)).length ≤ n := by simpa using h
    have h2 : (l.take s).length ≤ n := by
      simp only [List.length_take]
      omega
    rw [List.getElem?_eq_none h1, List.getElem?_eq_none h2]

/-! ### The remove_vocals loop -/

theorem remove_fold (sound : Sound) (hr : sound.left.length ≤ sound.right.length)
    (j : ℕ) (hj : j ≤ sound.left.length) :
    (List.range j).foldlM (removeBody sound) [] =
      .ok ((List.range j).map
        (fun i => sound.left.getD i 0 - sound.right.getD i 0)) := by
  induction j with
  | zero => rfl
  | succ j ih =>
    rw [List.range_succ, List.foldlM_append, ih (Nat.le_of_succ_le hj)]
    have hjl : j < sound.left.length := hj
    have hjr : j < sound.right.length := lt_of_lt_of_le hjl hr
    simp only [List.foldlM, removeBody, pyGetE_of_lt hjl, pyGetE_of_lt hjr,
      List.range_succ, List.map_append, List.map_cons, List.map_nil]
    rfl

/-! ### The mix loop -/

theorem mix_fold (sound1 sound2 : Sound) (p : ℚ) (samples : ℕ)
    (h1 : samples ≤ sound1.left.length) (h2 : samples ≤ sound2.left.length)
    (h3 : samples ≤ sound1.right.length) (h4 : samples ≤ sound2.right.length)
    (j : ℕ) (hj : j ≤ samples) :
    (List.range j).foldlM (mixBody sound1 sound2 p) ([], []) =
      .ok ((List.range j).map
             (fun i => p * sound1.left.getD i 0 + (1 - p) * sound2.left.getD i 0),
           (List.range j).map
             (fun i => p * sound1.right.getD i 0 + (1 - p) * sound2.right.getD i 0)) := by
  induction j with
  | zero => rfl
  | succ j ih =>
    rw [List.range_succ, List.foldlM_append, ih (Nat.le_of_succ_le hj)]
    have e1 : j < sound1.left.length := lt_of_lt_of_le hj h1
    have e2 : j < sound2.left.length := lt_of_lt_of_le hj h2
    have e3 : j < sound1.right.length := lt_of_lt_of_le hj h3
    have e4 : j < sound2.right.length := lt_of_lt_of_le hj h4
    simp only [List.foldlM, mixBody, pyGetE_of_lt e1, pyGetE_of_lt e2,
      pyGetE_of_lt e3, pyGetE_of_lt e4, List.range_succ, List.map_append,
      List.map_cons, List.map_nil]
    rfl

theorem mix_ok (sound1 sound2 : Sound) (p : ℚ)
    (hr : sound1.rate = sound2.rate) (hp0 : 0 ≤ p) (hp1 : p ≤ 1)
    (hw1 : sound1.left.length = sound1.right.length)
    (hw2 : sound2.left.length = sound2.right.length) :
    mix sound1 sound2 p =
      .ok ⟨sound1.rate,
        (List.range (min sound1.left.length sound2.left.length)).map
          (fun i => p * sound1.left.getD i 0 + (1 - p) * sound2.left.getD i 0),
        (List.range (min sound1.left.length sound2.left.length)).map
          (fun i => p * sound1.right.getD i 0 + (1 - p) * sound2.right.getD i 0)⟩ := by
  have hmin : (if sound1.left.length ≤ sound2.left.length then sound1.left.length
      else sound2.left.length) = min sound1.left.length sound2.left.length :=
    (Nat.min_def).symm
  simp only [mix, if_neg (show ¬ sound1.rate ≠ sound2.rate by simp [hr]),
    if_neg (show ¬ ¬ (0 ≤ p ∧ p ≤ 1) by simp [hp0, hp1]), hmin]
  rw [mix_fold sound1 sound2 p (min sound1.left.length sound2.left.length)
      (Nat.min_le_left _ _) (Nat.min_le_right _ _)
      (le_trans (Nat.min_le_left _ _) (le_of_eq hw1))
      (le_trans (Nat.min_le_right _ _) (le_of_eq hw2))
      (min sound1.left.length sound2.left.length) (le_refl _)]
  rfl

theorem okBind {α β : Type} (a : α) (f : α → Except PyError β) :
    (Except.ok a >>= f : Except PyError β) = f a := rfl

theorem errBind {α β : Type} (e : PyError) (f : α → Except PyError β) :
    (Except.error e >>= f : Except PyError β) = .error e := rfl

/-! ### The pan loop -/

theorem pan_fold (l0 r0 : List ℚ) (n : ℕ) (ltr : Bool)
    (hl : l0.length = n) (hr : n ≤ r0.length) (hdiv : (n : ℚ) - 1 ≠ 0)
    (j : ℕ) (hj : j ≤ n) :
    ∃ l' r', (List.range j).foldlM (panBody n ltr) (l0, r0) = .ok (l', r') ∧
      l'.length = l0.length ∧ r'.length = r0.length ∧
      (∀ i : ℕ, l'.getD i 0 = if i < j then
          l0.getD i 0 *
            (if ltr then 1 - (i : ℚ) / ((n : ℚ) - 1) else (i : ℚ) / ((n : ℚ) - 1))
        else l0.getD i 0) ∧
      (∀ i : ℕ, r'.getD i 0 = if i < j then
          r0.getD i 0 *
            (if ltr then (i : ℚ) / ((n : ℚ) - 1) else 1 - (i : ℚ) / ((n : ℚ) - 1))
        else r0.getD i 0) := by
  induction j with
  | zero => exact ⟨l0, r0, rfl, rfl, rfl, by simp, by simp⟩
  | succ j ih =>
    obtain ⟨l', r', hfold, hlen, hrlen, hLg, hRg⟩ := ih (Nat.le_of_succ_le hj)
    have hjl : j < l'.length := by rw [hlen, hl]; exact hj
    have hjr : j < r'.length := by rw [hrlen]; exact lt_of_lt_of_le hj hr
    refine ⟨l'.set j (l'.getD j 0 *
        (if ltr then 1 - (j : ℚ) / ((n : ℚ) - 1) else (j : ℚ) / ((n : ℚ) - 1))),
      r'.set j (r'.getD j 0 *
        (if ltr then (j : ℚ) / ((n : ℚ) - 1) else 1 - (j : ℚ) / ((n : ℚ) - 1))),
      ?_, by simp [hlen], by simp [hrlen], ?_, ?_⟩
    · rw [List.range_succ, List.foldlM_append, hfold]
      cases ltr
      · simp only [List.foldlM, okBind, panBody, pyGetE_of_lt hjl, pyGetE_of_lt hjr,
          pyDiv, if_neg hdiv, Bool.false_eq_true, if_false]
        rfl
      · simp only [List.foldlM, okBind, panBody, pyGetE_of_lt hjl, pyGetE_of_lt hjr,
          pyDiv, if_neg hdiv, if_true]
        rfl
    · intro i
      rcases eq_or_ne i j with rfl | hne
      · rw [getD_set_self hjl, hLg i, if_neg (lt_irrefl i), if_pos (Nat.lt_succ_self i)]
      · rw [getD_set_ne (Ne.symm hne), hLg i]
        rcases lt_or_le i j with h | h
        · rw [if_pos h, if_pos (Nat.lt_succ_of_lt h)]
        · rw [if_neg (not_lt.mpr h), if_neg (by omega)]
    · intro i
      rcases eq_or_ne i j with rfl | hne
      · rw [getD_set_self hjr, hRg i, if_neg (lt_irrefl i), if_pos (Nat.lt_succ_self i)]
      · rw [getD_set_ne (Ne.symm hne), hRg i]
        rcases lt_or_le i j with h | h
        · rw [if_pos h, if_pos (Nat.lt_succ_of_lt h)]
        · rw [if_neg (not_lt.mpr h), if_neg (by omega)]

theorem pan_ok (sound : Sound) (ltr : Bool)
    (hwf : sound.left.length = sound.right.length) (hn : 2 ≤ sound.left.length) :
    ∃ out, pan sound ltr = .ok out ∧ out.rate = sound.rate ∧
      out.left.length = sound.left.length ∧ out.right.length = sound.right.length ∧
      (∀ i : ℕ, i < sound.left.length → out.left.getD i 0 = sound.left.getD i 0 *
        (if ltr then 1 - (i : ℚ) / ((sound.left.length : ℚ) - 1)
         else (i : ℚ) / ((sound.left.length : ℚ) - 1))) ∧
      (∀ i : ℕ, i < sound.left.length → out.right.getD i 0 = sound.right.getD i 0 *
        (if ltr then (i : ℚ) / ((sound.left.length : ℚ) - 1)
         else 1 - (i : ℚ) / ((sound.left.length : ℚ) - 1))) := by
  have hdiv : ((sound.left.length : ℚ)) - 1 ≠ 0 := by
    have : (2 : ℚ) ≤ (sound.left.length : ℚ) := by exact_mod_cast hn
    intro hc
    nlinarith
  obtain ⟨l', r', hfold, hlen, hrlen, hLg, hRg⟩ :=
    pan_fold sound.left sound.right sound.left.length ltr rfl (le_of_eq hwf) hdiv
      sound.left.length (le_refl _)
  refine ⟨⟨sound.rate, l', r'⟩, ?_, rfl, by rw [hlen], by rw [hrlen, ← hwf], ?_, ?_⟩
  · simp only [pan, hfold]
    rfl
  · intro i hi
    rw [hLg i, if_pos hi]
  · intro i hi
    rw [hRg i, if_pos hi]

/-! ### The echo loops -/

theorem getD_append_replicate_zero (l : List ℚ) (d i : ℕ) :
    (l ++ List.replicate d (0 : ℚ)).getD i 0 = l.getD i 0 := by
  rcases lt_or_le i l.length with h | h
  · exact getD_append_lt h
  · rw [getD_append_ge h, getD_replicate_zero, getD_eq_zero_of_le h]

theorem echo_pass (eL eR : List ℚ) (shift : ℤ) (h0 : 0 ≤ shift)
    (l0 r0 : List ℚ) (len : ℕ) (hl : l0.length = len) (hr : r0.length = len)
    (hlen : len ≤ eL.length + shift.toNat) (herl : eR.length = eL.length)
    (j : ℕ) (hj : j ≤ len) :
    ∃ l' r', (List.range j).foldlM (echoBody eL eR shift) (l0, r0) = .ok (l', r') ∧
      l'.length = len ∧ r'.length = len ∧
      (∀ i : ℕ, l'.getD i 0 = l0.getD i 0 +
        (if i < j ∧ shift ≤ (i : ℤ) then eL.getD ((i : ℤ) - shift).toNat 0 else 0)) ∧
      (∀ i : ℕ, r'.getD i 0 = r0.getD i 0 +
        (if i < j ∧ shift ≤ (i : ℤ) then eR.getD ((i : ℤ) - shift).toNat 0 else 0)) := by
  induction j with
  | zero => exact ⟨l0, r0, rfl, hl, hr, by simp, by simp⟩
  | succ j ih =>
    obtain ⟨l', r', hfold, hlen', hrlen', hLg, hRg⟩ := ih (Nat.le_of_succ_le hj)
    have hjl : j < l'.length := by rw [hlen']; exact hj
    have hjr : j < r'.length := by rw [hrlen']; exact hj
    by_cases hs : shift ≤ (j : ℤ)
    · have hsub0 : (0 : ℤ) ≤ (j : ℤ) - shift := by omega
      have hsubL : ((j : ℤ) - shift).toNat < eL.length := by
        clear ih hfold hLg hRg
        omega
      have hsubR : ((j : ℤ) - shift).toNat < eR.length := by
        clear ih hfold hLg hRg
        omega
      refine ⟨l'.set j (l'.getD j 0 + eL.getD ((j : ℤ) - shift).toNat 0),
        r'.set j (r'.getD j 0 + eR.getD ((j : ℤ) - shift).toNat 0), ?_,
        by simp [hlen'], by simp [hrlen'], ?_, ?_⟩
      · rw [List.range_succ, List.foldlM_append, hfold]
        simp only [List.foldlM, okBind, echoBody, if_pos hs, pyGetE_of_lt hjl,
          pyGetE_of_lt hjr, pyGetE_nonneg_of_lt hsub0 hsubL,
          pyGetE_nonneg_of_lt hsub0 hsubR]
        rfl
      · intro i
        rcases eq_or_ne i j with rfl | hne
        · rw [getD_set_self hjl, hLg i, if_neg (by omega),
            if_pos ⟨Nat.lt_succ_self i, hs⟩, add_zero]
        · rw [getD_set_ne (Ne.symm hne), hLg i]
          by_cases hij : i < j ∧ shift ≤ (i : ℤ)
          · rw [if_pos hij, if_pos ⟨Nat.lt_succ_of_lt hij.1, hij.2⟩]
          · rw [if_neg hij, if_neg (by omega)]
      · intro i
        rcases eq_or_ne i j with rfl | hne
        · rw [getD_set_self hjr, hRg i, if_neg (by omega),
            if_pos ⟨Nat.lt_succ_self i, hs⟩, add_zero]
        · rw [getD_set_ne (Ne.symm hne), hRg i]
          by_cases hij : i < j ∧ shift ≤ (i : ℤ)
          · rw [if_pos hij, if_pos ⟨Nat.lt_succ_of_lt hij.1, hij.2⟩]
          · rw [if_neg hij, if_neg (by omega)]
    · refine ⟨l', r', ?_, hlen', hrlen', ?_, ?_⟩
      · rw [List.range_succ, List.foldlM_append, hfold]
        simp only [List.foldlM, okBind, echoBody, if_neg hs]
        rfl
      · intro i
        rw [hLg i]
        by_cases hij : i < j ∧ shift ≤ (i : ℤ)
        · rw [if_pos hij, if_pos ⟨Nat.lt_succ_of_lt hij.1, hij.2⟩]
        · rw [if_neg hij, if_neg (by omega)]
      · intro i
        rw [hRg i]
        by_cases hij : i < j ∧ shift ≤ (i : ℤ)
        · rw [if_pos hij, if_pos ⟨Nat.lt_succ_of_lt hij.1, hij.2⟩]
        · rw [if_neg hij, if_neg (by omega)]

theorem addend_convert (orig : List ℚ) (scale : ℚ) (d k n i : ℕ) (hn : orig.length = n) :
    (if i < n + (k + 1) * d ∧ ((d * (1 + k) : ℕ) : ℤ) ≤ (i : ℤ) then
        (multiply_list orig (scale ^ (1 + k))).getD ((i : ℤ) - ((d * (1 + k) : ℕ) : ℤ)).toNat 0
      else 0) = echoAddend orig scale d k i := by
  have h1 : d * (1 + k) = d * (k + 1) := by ring
  have h2 : (k + 1) * d = d * (k + 1) := by ring
  rw [h1, h2]
  unfold echoAddend
  rw [hn]
  by_cases hc : d * (k + 1) ≤ i ∧ i - d * (k + 1) < n
  · have hcL : i < n + d * (k + 1) ∧ ((d * (k + 1) : ℕ) : ℤ) ≤ (i : ℤ) := by
      constructor
      · omega
      · exact_mod_cast hc.1
    rw [if_pos hcL, if_pos hc, multiply_list_getD]
    have ht : ((i : ℤ) - ((d * (k + 1) : ℕ) : ℤ)).toNat = i - d * (k + 1) := by omega
    rw [ht]
    ring
  · have hcL : ¬ (i < n + d * (k + 1) ∧ ((d * (k + 1) : ℕ) : ℤ) ≤ (i : ℤ)) := by
      intro hcc
      apply hc
      constructor
      · exact_mod_cast hcc.2
      · omega
    rw [if_neg hcL, if_neg hc]

theorem echoIter_spec (sound : Sound) (d : ℕ) (scale : ℚ) (k : ℕ)
    (hwf : sound.right.length = sound.left.length)
    (lk rk : List ℚ)
    (hlk : lk.length = sound.left.length + k * d)
    (hrk : rk.length = sound.left.length + k * d) :
    ∃ l' r', echoIter sound (d : ℤ) scale (lk, rk) k = .ok (l', r') ∧
      l'.length = sound.left.length + (k + 1) * d ∧
      r'.length = sound.left.length + (k + 1) * d ∧
      (∀ i : ℕ, l'.getD i 0 = lk.getD i 0 + echoAddend sound.left scale d k i) ∧
      (∀ i : ℕ, r'.getD i 0 = rk.getD i 0 + echoAddend sound.right scale d k i) := by
  have hcast : (d : ℤ) * (1 + (k : ℤ)) = ((d * (1 + k) : ℕ) : ℤ) := by push_cast; ring
  have hlen0 : (lk ++ List.replicate d (0 : ℚ)).length
      = sound.left.length + (k + 1) * d := by
    simp only [List.length_append, List.length_replicate, hlk]
    ring
  have hrlen0 : (rk ++ List.replicate d (0 : ℚ)).length
      = sound.left.length + (k + 1) * d := by
    simp only [List.length_append, List.length_replicate, hrk]
    ring
  obtain ⟨l', r', hfold, hlen', hrlen', hLg, hRg⟩ :=
    echo_pass (multiply_list sound.left (scale ^ (1 + k)))
      (multiply_list sound.right (scale ^ (1 + k)))
      ((d * (1 + k) : ℕ) : ℤ) (Int.natCast_nonneg _)
      (lk ++ List.replicate d 0) (rk ++ List.replicate d 0)
      (sound.left.length + (k + 1) * d) hlen0 hrlen0
      (by
        rw [multiply_list_length, Int.toNat_natCast]
        apply le_of_eq
        ring)
      (by rw [multiply_list_length, multiply_list_length, hwf])
      (sound.left.length + (k + 1) * d) (le_refl _)
  refine ⟨l', r', ?_, hlen', hrlen', ?_, ?_⟩
  · simp only [echoIter, Int.toNat_natCast, hcast]
    rw [hlen0]
    exact hfold
  · intro i
    rw [hLg i, getD_append_replicate_zero]
    congr 1
    exact addend_convert sound.left scale d k sound.left.length i rfl
  · intro i
    rw [hRg i, getD_append_replicate_zero]
    congr 1
    rw [← hwf] at hlen0 hrlen0 ⊢
    exact addend_convert sound.right scale d k sound.right.length i rfl

theorem echo_fold (sound : Sound) (d : ℕ) (scale : ℚ)
    (hwf : sound.right.length = sound.left.length) (E : ℕ) :
    ∃ l' r', (List.range E).foldlM (echoIter sound (d : ℤ) scale)
        (sound.left, sound.right) = .ok (l', r') ∧
      l'.length = sound.left.length + E * d ∧
      r'.length = sound.left.length + E * d ∧
      (∀ i : ℕ, l'.getD i 0 = echoShape sound.left scale d E i) ∧
      (∀ i : ℕ, r'.getD i 0 = echoShape sound.right scale d E i) := by
  induction E with
  | zero =>
    refine ⟨sound.left, sound.right, rfl, by simp, by simp [hwf], ?_, ?_⟩
    · intro i
      simp [echoShape]
    · intro i
      simp [echoShape]
  | succ E ih =>
    obtain ⟨lE, rE, hfold, hlen, hrlen, hLg, hRg⟩ := ih
    obtain ⟨l', r', hiter, hlen', hrlen', hLg', hRg'⟩ :=
      echoIter_spec sound d scale E hwf lE rE hlen hrlen
    refine ⟨l', r', ?_, hlen', hrlen', ?_, ?_⟩
    · rw [List.range_succ, List.foldlM_append, hfold]
      simp only [List.foldlM, okBind]
      rw [hiter]
      rfl
    · intro i
      rw [hLg' i, hLg i]
      unfold echoShape
      rw [Finset.sum_range_succ]
      ring
    · intro i
      rw [hRg' i, hRg i]
      unfold echoShape
      rw [Finset.sum_range_succ]
      ring

theorem foldl_append_join (f g : ℚ × ℚ → ℤ) (l : List (ℚ × ℚ)) (acc : List ℤ) :
    l.foldl (fun out lr => out ++ [f lr, g lr]) acc
      = acc ++ (l.map (fun lr => [f lr, g lr])).flatten := by
  induction l generalizing acc with
  | nil => simp
  | cons hd tl ih =>
    simp only [List.foldl_cons, List.map_cons, List.flatten, ih, List.append_assoc]

/-! ### Claim theorems -/

/-- C9: `backwards` (the spec's reverse) returns a buffer with the same
rate whose channels are the input's channels in reverse sample order,
and it is an involution on every buffer, the empty one included. -/
theorem backwards_involution (sound : Sound) :
    (backwards sound).rate = sound.rate ∧
    (backwards sound).left = sound.left.reverse ∧
    (backwards sound).right = sound.right.reverse ∧
    backwards (backwards sound) = sound := by
  refine ⟨rfl, rfl, rfl, ?_⟩
  simp [backwards]

/-- C8: on a buffer with equal-length channels, `remove_vocals` returns a
buffer of the same length and rate whose two channels are the identical
sequence of differences left[i] - right[i]; when the channels coincide
the result is all zeros. -/
theorem remove_vocals_subtracts (sound : Sound)
    (hwf : sound.left.length = sound.right.length) :
    ∃ out, remove_vocals sound = .ok out ∧ out.rate = sound.rate ∧
      out.right = out.left ∧ out.left.length = sound.left.length ∧
      (∀ i : ℕ, i < sound.left.length →
        out.left.getD i 0 = sound.left.getD i 0 - sound.right.getD i 0) ∧
      (sound.left = sound.right → out.left = List.replicate sound.left.length 0) := by
  refine ⟨⟨sound.rate,
    (List.range sound.left.length).map
      (fun i => sound.left.getD i 0 - sound.right.getD i 0),
    (List.range sound.left.length).map
      (fun i => sound.left.getD i 0 - sound.right.getD i 0)⟩,
    ?_, rfl, rfl, by simp, ?_, ?_⟩
  · simp only [remove_vocals,
      remove_fold sound (le_of_eq hwf) sound.left.length (le_refl _), okBind]
    rfl
  · intro i hi
    exact map_range_getD _ _ _ hi
  · intro heq
    rw [List.eq_replicate_iff]
    refine ⟨by simp, ?_⟩
    intro b hb
    obtain ⟨i, hi, hbi⟩ := List.mem_map.mp hb
    rw [← hbi, heq, sub_self]

/-- C8 witness: the spec's concrete scenario, a buffer with equal
channels collapses to zeros. -/
theorem remove_vocals_subtracts_witness :
    ∃ out, remove_vocals ⟨8000, [1, 1/2, -1/2], [1, 1/2, -1/2]⟩ = .ok out ∧
      out.left = List.replicate 3 0 := by
  obtain ⟨out, hok, -, -, -, -, hzero⟩ :=
    remove_vocals_subtracts ⟨8000, [1, 1/2, -1/2], [1, 1/2, -1/2]⟩ (by decide)
  exact ⟨out, hok, by simpa using hzero rfl⟩

/-- C5: mixing two well-formed buffers of equal rate with p in [0,1]
yields a buffer of length min(len a, len b) at rate a.rate blended
pointwise, the longer tail silently discarded; p = 1 gives a truncated
and p = 0 gives b truncated. -/
theorem mix_blend (a b : Sound) (p : ℚ)
    (hwa : a.left.length = a.right.length) (hwb : b.left.length = b.right.length)
    (hr : a.rate = b.rate) (hp0 : 0 ≤ p) (hp1 : p ≤ 1) :
    ∃ out, mix a b p = .ok out ∧ out.rate = a.rate ∧
      out.left.length = min a.left.length b.left.length ∧
      out.right.length = min a.left.length b.left.length ∧
      (∀ i : ℕ, i < min a.left.length b.left.length →
        out.left.getD i 0 = p * a.left.getD i 0 + (1 - p) * b.left.getD i 0 ∧
        out.right.getD i 0 = p * a.right.getD i 0 + (1 - p) * b.right.getD i 0) ∧
      (p = 1 → out.left = a.left.take (min a.left.length b.left.length) ∧
        out.right = a.right.take (min a.left.length b.left.length)) ∧
      (p = 0 → out.left = b.left.take (min a.left.length b.left.length) ∧
        out.right = b.right.take (min a.left.length b.left.length)) := by
  rw [mix_ok a b p hr hp0 hp1 hwa hwb]
  refine ⟨_, rfl, rfl, by simp, by simp, ?_, ?_, ?_⟩
  · intro i hi
    exact ⟨map_range_getD _ _ _ hi, map_range_getD _ _ _ hi⟩
  · rintro rfl
    constructor
    · rw [show (fun i => 1 * a.left.getD i 0 + (1 - 1) * b.left.getD i 0)
          = fun i => a.left.getD i 0 from by funext i; ring]
      exact map_getD_range_eq_take _ _ (Nat.min_le_left _ _)
    · rw [show (fun i => 1 * a.right.getD i 0 + (1 - 1) * b.right.getD i 0)
          = fun i => a.right.getD i 0 from by funext i; ring]
      exact map_getD_range_eq_take _ _ (le_trans (Nat.min_le_left _ _) (le_of_eq hwa))
  · rintro rfl
    constructor
    · rw [show (fun i => 0 * a.left.getD i 0 + (1 - 0) * b.left.getD i 0)
          = fun i => b.left.getD i 0 from by funext i; ring]
      exact map_getD_range_eq_take _ _ (Nat.min_le_right _ _)
    · rw [show (fun i => 0 * a.right.getD i 0 + (1 - 0) * b.right.getD i 0)
          = fun i => b.right.getD i 0 from by funext i; ring]
      exact map_getD_range_eq_take _ _ (le_trans (Nat.min_le_right _ _) (le_of_eq hwb))

/-- C5 witness: the spec's concrete mixing scenario at p = 1/2. -/
theorem mix_blend_witness :
    ∃ out, mix ⟨100, [1, 1], [1, 1]⟩ ⟨100, [0, 0], [0, 0]⟩ (1/2) = .ok out ∧
      out.left.length = 2 := by
  obtain ⟨out, hok, -, hlen, -, -, -, -⟩ :=
    mix_blend ⟨100, [1, 1], [1, 1]⟩ ⟨100, [0, 0], [0, 0]⟩ (1/2)
      rfl rfl rfl (by norm_num) (by norm_num)
  exact ⟨out, hok, by simpa using hlen⟩

/-- C6: mix fails with the rate assert exactly when the rates differ,
fails with the proportion assert (given equal rates) exactly when p is
outside [0,1], and succeeds otherwise on well-formed buffers, producing
a buffer only in the success case. -/
theorem mix_error_cases (a b : Sound) (p : ℚ)
    (hwa : a.left.length = a.right.length) (hwb : b.left.length = b.right.length) :
    (mix a b p = .error .rateAssert ↔ a.rate ≠ b.rate) ∧
    (a.rate = b.rate → (mix a b p = .error .propAssert ↔ (p < 0 ∨ 1 < p))) ∧
    (a.rate = b.rate → 0 ≤ p → p ≤ 1 → ∃ out, mix a b p = .ok out) := by
  refine ⟨⟨?_, ?_⟩, ?_, ?_⟩
  · intro hmix
    by_contra hc'
    by_cases hp : 0 ≤ p ∧ p ≤ 1
    · rw [mix_ok a b p hc' hp.1 hp.2 hwa hwb] at hmix
      exact Except.noConfusion hmix
    · have hprop : mix a b p = .error .propAssert := by
        unfold mix
        rw [if_neg (by simp [hc']), if_pos hp]
      rw [hprop] at hmix
      simp at hmix
  · intro hne
    unfold mix
    rw [if_pos hne]
  · intro heq
    constructor
    · intro hmix
      by_contra hc
      have h0 : 0 ≤ p := le_of_not_lt (fun hlt => hc (Or.inl hlt))
      have h1 : p ≤ 1 := le_of_not_lt (fun hlt => hc (Or.inr hlt))
      rw [mix_ok a b p heq h0 h1 hwa hwb] at hmix
      exact Except.noConfusion hmix
    · intro hp
      unfold mix
      refine (if_neg (by simp [heq])).trans (if_pos ?_)
      rcases hp with h | h
      · intro hcc
        linarith [hcc.1]
      · intro hcc
        linarith [hcc.2]
  · intro heq h0 h1
    exact ⟨_, mix_ok a b p heq h0 h1 hwa hwb⟩

/-- C6 witness: a rate mismatch raises the rate assert, and a valid call
succeeds. -/
theorem mix_error_cases_witness :
    mix ⟨100, [1], [1]⟩ ⟨200, [0], [0]⟩ (1/2) = .error .rateAssert ∧
    (∃ out, mix ⟨100, [1], [1]⟩ ⟨100, [0], [0]⟩ (1/2) = .ok out) := by
  constructor
  · exact (mix_error_cases ⟨100, [1], [1]⟩ ⟨200, [0], [0]⟩ (1/2) rfl rfl).1.mpr
      (by decide)
  · exact (mix_error_cases ⟨100, [1], [1]⟩ ⟨100, [0], [0]⟩ (1/2) rfl rfl).2.2 rfl
      (by norm_num) (by norm_num)

/-- C4 counterexample: on the zero-length buffer `pan` never reaches the
division (the loop body does not run) and returns a result, so panning
does not fail on every buffer with n <= 1. -/
theorem pan_empty_counterexample :
    pan ⟨8000, [], []⟩ true = .ok ⟨8000, [], []⟩ := rfl

/-- C4 amended: pan divides by zero exactly on single-sample buffers;
with one sample it raises ZeroDivisionError (never returning a buffer),
while the zero-sample buffer is returned unchanged. -/
theorem pan_short_buffer (sound : Sound) (ltr : Bool) :
    (sound.left.length = 1 → pan sound ltr = .error .zeroDivision) ∧
    (sound.left.length = 0 → pan sound ltr = .ok sound) := by
  constructor
  · intro h1
    obtain ⟨x, hx⟩ := List.length_eq_one.mp h1
    cases ltr
    · simp [pan, h1, hx, List.range_succ, List.range_zero, List.foldlM, panBody, pyGetE, pyGet,
        pyDiv, okBind, errBind]
    · simp [pan, h1, hx, List.range_succ, List.range_zero, List.foldlM, panBody, pyGetE, pyGet,
        pyDiv, okBind, errBind]
  · intro h0
    simp only [pan, h0, List.range_zero, List.foldlM]
    rfl

/-- C4 witness: a one-sample buffer raises ZeroDivisionError and the
empty buffer passes through. -/
theorem pan_short_buffer_witness :
    pan ⟨1, [5], [7]⟩ true = .error .zeroDivision ∧
    pan ⟨1, [], []⟩ false = .ok ⟨1, [], []⟩ := by
  constructor
  · exact (pan_short_buffer ⟨1, [5], [7]⟩ true).1 rfl
  · exact (pan_short_buffer ⟨1, [], []⟩ false).2 rfl

/-- C7: on a well-formed buffer with more than one sample, pan returns a
buffer of the same length and rate scaled by the linear cross-fade
fraction f = i/(n-1) (factors swapped when panning right to left), with
the claimed boundary endpoints in the left-to-right case. -/
theorem pan_linear_crossfade (sound : Sound) (ltr : Bool)
    (hwf : sound.left.length = sound.right.length) (hn : 1 < sound.left.length) :
    ∃ out, pan sound ltr = .ok out ∧ out.rate = sound.rate ∧
      out.left.length = sound.left.length ∧ out.right.length = sound.left.length ∧
      (∀ i : ℕ, i < sound.left.length →
        out.left.getD i 0 = sound.left.getD i 0 *
          (if ltr then 1 - (i : ℚ) / ((sound.left.length : ℚ) - 1)
           else (i : ℚ) / ((sound.left.length : ℚ) - 1)) ∧
        out.right.getD i 0 = sound.right.getD i 0 *
          (if ltr then (i : ℚ) / ((sound.left.length : ℚ) - 1)
           else 1 - (i : ℚ) / ((sound.left.length : ℚ) - 1))) ∧
      (ltr = true →
        out.left.getD 0 0 = sound.left.getD 0 0 ∧
        out.right.getD 0 0 = 0 ∧
        out.left.getD (sound.left.length - 1) 0 = 0 ∧
        out.right.getD (sound.left.length - 1) 0 =
          sound.right.getD (sound.left.length - 1) 0) := by
  obtain ⟨out, hok, hrate, hllen, hrlen, hLg, hRg⟩ :=
    pan_ok sound ltr hwf hn
  have hone : (1 : ℚ) < (sound.left.length : ℚ) := by exact_mod_cast hn
  have hdiv : ((sound.left.length : ℚ)) - 1 ≠ 0 :=
    sub_ne_zero.mpr (ne_of_gt hone)
  have hcast : ((sound.left.length - 1 : ℕ) : ℚ) = (sound.left.length : ℚ) - 1 := by
    rw [Nat.cast_sub (le_of_lt hn), Nat.cast_one]
  refine ⟨out, hok, hrate, hllen, by rw [hrlen, ← hwf], ?_, ?_⟩
  · intro i hi
    exact ⟨hLg i hi, hRg i hi⟩
  · rintro rfl
    have h0 : 0 < sound.left.length := lt_trans Nat.zero_lt_one hn
    have hlast : sound.left.length - 1 < sound.left.length := by omega
    refine ⟨?_, ?_, ?_, ?_⟩
    · rw [hLg 0 h0]
      simp
    · rw [hRg 0 h0]
      simp
    · rw [hLg (sound.left.length - 1) hlast]
      simp only [if_true, hcast, div_self hdiv, sub_self, mul_zero]
    · rw [hRg (sound.left.length - 1) hlast]
      simp only [if_true, hcast, div_self hdiv, mul_one]

/-- C7 witness: a three-sample buffer panned left to right ends with a
silent left channel. -/
theorem pan_linear_crossfade_witness :
    ∃ out, pan ⟨10, [1, 1, 1], [1, 1, 1]⟩ true = .ok out ∧ out.left.getD 2 0 = 0 := by
  obtain ⟨out, hok, -, -, -, -, hend⟩ :=
    pan_linear_crossfade ⟨10, [1, 1, 1], [1, 1, 1]⟩ true rfl (by decide)
  exact ⟨out, hok, by simpa using (hend rfl).2.2.1⟩

/-- C2 counterexample: the in-range sample 65533/65534 is reconstructed
with an error of about 1.5 quantization steps, exceeding one LSB. -/
theorem roundtrip_one_lsb_counterexample :
    (-1 : ℚ) ≤ 65533/65534 ∧ (65533/65534 : ℚ) ≤ 1 ∧
    1 / 2 ^ 15 < |decodeSample (encodeSample (65533/65534)) - 65533/65534| := by
  have henc : encodeSample (65533/65534 : ℚ) = 32766 := by
    rw [encodeSample, show clampScale (65533/65534 : ℚ) = 65533/2 from by
      unfold clampScale
      rw [min_eq_right (by norm_num : (65533/65534 : ℚ) ≤ 1),
        max_eq_right (by norm_num : (-1 : ℚ) ≤ 65533/65534)]
      norm_num]
    rw [pyInt, if_pos (by norm_num : (0 : ℚ) ≤ 65533/2)]
    norm_num
  refine ⟨by norm_num, by norm_num, ?_⟩
  rw [henc, lt_abs]
  right
  rw [decodeSample]
  norm_num

/-- C2 amended: decoding the encoding of any sample in [-1,1] lands
strictly within two quantization steps (2/2^15) of the original; the
one-LSB bound of the claim can be exceeded. -/
theorem roundtrip_within_two_lsb (x : ℚ) (h1 : -1 ≤ x) (h2 : x ≤ 1) :
    |decodeSample (encodeSample x) - x| < 2 / 2 ^ 15 := by
  have hclamp : clampScale x = x * (2 ^ 15 - 1) := by
    unfold clampScale
    rw [min_eq_right h2, max_eq_right h1]
  have htr := pyInt_sub_abs_lt (clampScale x)
  rw [hclamp, abs_lt] at htr
  unfold decodeSample encodeSample
  rw [hclamp, abs_lt]
  have h15 : (2 : ℚ) ^ 15 = 32768 := by norm_num
  simp only [h15] at htr ⊢
  set c := ((pyInt (x * (32768 - 1)) : ℤ) : ℚ) with hc
  constructor
  · linarith [htr.1]
  · linarith [htr.2]

/-- C2 witness: the bound holds at the concrete sample 1/2. -/
theorem roundtrip_within_two_lsb_witness :
    (-1 : ℚ) ≤ 1/2 ∧ (1/2 : ℚ) ≤ 1 ∧
    |decodeSample (encodeSample (1/2)) - 1/2| < 2 / 2 ^ 15 :=
  ⟨by norm_num, by norm_num,
    roundtrip_within_two_lsb (1/2) (by norm_num) (by norm_num)⟩

/-- C3 counterexample: at sample 2/3 the code yields 21844 although
21845 is strictly nearer to the scaled value, so encode does not round
to the nearest integer. -/
theorem encode_round_counterexample :
    encodeSample (2/3) = 21844 ∧
    |clampScale (2/3) - 21845| < |clampScale (2/3) - 21844| := by
  have hcl : clampScale (2/3 : ℚ) = 65534/3 := by
    unfold clampScale
    rw [min_eq_right (by norm_num : (2/3 : ℚ) ≤ 1),
      max_eq_right (by norm_num : (-1 : ℚ) ≤ 2/3)]
    norm_num
  constructor
  · rw [encodeSample, hcl, pyInt, if_pos (by norm_num : (0 : ℚ) ≤ 65534/3)]
    norm_num
  · rw [hcl, abs_of_neg (by norm_num : (65534/3 : ℚ) - 21845 < 0),
      abs_of_pos (by norm_num : (0 : ℚ) < 65534/3 - 21844)]
    norm_num

/-- C3 amended: encode clamps each sample to [-1,1], scales it by
2^15 - 1 and truncates toward zero (within one of the scaled value and
never exceeding its magnitude, hence always inside the signed 16-bit
range), and write_wav serializes exactly these encodings interleaved. -/
theorem encode_clamp_truncate (x : ℚ) (sound : Sound) :
    |(encodeSample x : ℚ) - clampScale x| < 1 ∧
    |(encodeSample x : ℚ)| ≤ |clampScale x| ∧
    -(2 ^ 15 - 1) ≤ encodeSample x ∧ encodeSample x ≤ 2 ^ 15 - 1 ∧
    write_wav_frames sound =
      ((sound.left.zip sound.right).map
        (fun lr => [encodeSample lr.1, encodeSample lr.2])).flatten := by
  have h1 := pyInt_sub_abs_lt (clampScale x)
  have h2 := pyInt_abs_le (clampScale x)
  have hcb : |clampScale x| ≤ 2 ^ 15 - 1 := by
    unfold clampScale
    rw [abs_mul]
    have hm : |max (-1) (min 1 x)| ≤ 1 := by
      rw [abs_le]
      refine ⟨le_max_left _ _, ?_⟩
      apply max_le
      · norm_num
      · exact min_le_left _ _
    calc |max (-1) (min 1 x)| * |(2 ^ 15 - 1 : ℚ)|
        ≤ 1 * |(2 ^ 15 - 1 : ℚ)| := mul_le_mul_of_nonneg_right hm (abs_nonneg _)
      _ = 2 ^ 15 - 1 := by
          rw [one_mul, abs_of_pos]
          norm_num
  have habs : |(encodeSample x : ℚ)| ≤ 2 ^ 15 - 1 := le_trans h2 hcb
  refine ⟨h1, h2, ?_, ?_, ?_⟩
  · have h3 := (abs_le.mp habs).1
    exact_mod_cast h3
  · have h3 := (abs_le.mp habs).2
    exact_mod_cast h3
  · rw [write_wav_frames]
    exact (foldl_append_join _ _ _ []).trans (List.nil_append _)

/-- C10: load_audio asserts the ".wav" filename suffix before anything
else; when the check fails it errors with that assert for every possible
file content, a failure distinct from the 16-bit format assert. -/
theorem load_audio_requires_wav_suffix (filename : List Char) (f g : WaveFile)
    (h : wavSuffixCheck filename = false) :
    load_audio filename f = .error .assertWavExt ∧
    load_audio filename f = load_audio filename g ∧
    PyError.assertWavExt ≠ PyError.assertBitDepth := by
  have hf : load_audio filename f = .error .assertWavExt := by
    unfold load_audio
    rw [h]
    rfl
  have hg : load_audio filename g = .error .assertWavExt := by
    unfold load_audio
    rw [h]
    rfl
  exact ⟨hf, hf.trans hg.symm, by decide⟩

/-- C10 witness: a concrete ".mp3" filename is rejected whatever the
file contains. -/
theorem load_audio_requires_wav_suffix_witness :
    load_audio ['s', 'o', 'n', 'g', '.', 'm', 'p', '3'] ⟨2, 2, 44100, [(1, 2)]⟩
      = .error .assertWavExt :=
  (load_audio_requires_wav_suffix ['s', 'o', 'n', 'g', '.', 'm', 'p', '3']
    ⟨2, 2, 44100, [(1, 2)]⟩ ⟨1, 3, 8000, []⟩ (by decide)).1

/-- C1 counterexample: with delay -1 at rate 1 the sample delay rounds
to -1 and the first echo pass reads past the end of the echo list, so
the call raises IndexError instead of returning the described buffer. -/
theorem echo_negative_delay_counterexample :
    echo ⟨1, [1], [1]⟩ 1 (-1) 1 = .error .indexError := by
  have hpr : pyRound ((-1 : ℚ) * ((1 : ℤ) : ℚ)) = -1 := by
    norm_num [pyRound, Int.fract]
  simp only [echo, hpr]
  rfl

/-- C1 amended: for a well-formed buffer, num_echoes >= 0 and a
non-negative sample delay round(delay * rate), echo returns a buffer of
length len(left) + num_echoes * sample_delay equal to the original
samples extended with zeros plus the superposed, scale^(k+1)-attenuated
shifted copies; num_echoes = 0 returns the buffer unchanged. -/
theorem echo_superposition (sound : Sound) (num_echos : ℤ) (delay scale : ℚ)
    (hwf : sound.left.length = sound.right.length)
    (hE : 0 ≤ num_echos)
    (hd : 0 ≤ pyRound (delay * (sound.rate : ℚ))) :
    ∃ s, echo sound num_echos delay scale = .ok s ∧
      s.rate = sound.rate ∧
      s.left.length = sound.left.length
        + num_echos.toNat * (pyRound (delay * (sound.rate : ℚ))).toNat ∧
      s.right.length = sound.left.length
        + num_echos.toNat * (pyRound (delay * (sound.rate : ℚ))).toNat ∧
      (∀ i : ℕ, s.left.getD i 0 = echoShape sound.left scale
        (pyRound (delay * (sound.rate : ℚ))).toNat num_echos.toNat i) ∧
      (∀ i : ℕ, s.right.getD i 0 = echoShape sound.right scale
        (pyRound (delay * (sound.rate : ℚ))).toNat num_echos.toNat i) ∧
      (num_echos = 0 → echo sound num_echos delay scale = .ok sound) := by
  obtain ⟨l', r', hfold, hlen, hrlen, hLg, hRg⟩ :=
    echo_fold sound (pyRound (delay * (sound.rate : ℚ))).toNat scale hwf.symm
      num_echos.toNat
  have hcast : (((pyRound (delay * (sound.rate : ℚ))).toNat : ℤ))
      = pyRound (delay * (sound.rate : ℚ)) := Int.toNat_of_nonneg hd
  refine ⟨⟨sound.rate, l', r'⟩, ?_, rfl,
    by rw [hlen, Nat.mul_comm], by rw [hrlen, Nat.mul_comm], hLg, hRg, ?_⟩
  · simp only [echo]
    rw [← hcast, hfold]
    rfl
  · rintro rfl
    rfl

/-- C1 witness: a two-sample buffer at rate 2 with delay 1 and scale 1/2
gains two echo repetitions. -/
theorem echo_superposition_witness :
    ∃ s, echo ⟨2, [1, 2], [3, 4]⟩ 2 1 (1/2) = .ok s ∧ s.left.length = 6 := by
  obtain ⟨s, hok, -, hlen, -⟩ :=
    echo_superposition ⟨2, [1, 2], [3, 4]⟩ 2 1 (1/2) rfl (by norm_num)
      (by norm_num [pyRound, Int.fract])
  refine ⟨s, hok, ?_⟩
  rw [hlen]
  norm_num [pyRound, Int.fract]
  decide
